import Mathlib

/-!
Shallow embedding of the `kht` Go package (keyed hash tree, `kht.go`).

Bytes are modelled as `Nat` values below 256, byte slices as `List Nat`.
Go `uint64` values are modelled as `Nat` (the claims under study stay in the
regime where no 64-bit wraparound occurs, which is where the Go conversion
`uint64(float64)` is defined at all).  The Go `float64` branching factor is
modelled as `ℚ` (every finite float is rational); `math.Pow` on it is
modelled as exact rational exponentiation, and the conversion
`uint64(math.Pow ...)` as truncation (`floor` composed with `Int.toNat`,
which agrees with Go truncation toward zero on the nonnegative values the
code produces).  `math.Ceil (math.Log x / math.Log y)` in `New` is modelled
over `ℝ` with `Real.log`.  The panic in `Key` is modelled by `Option`:
`none` is the `offset greater than maximum size` panic.
-/

namespace Kht

/- The rational operations of Batteries are marked irreducible, which keeps
concrete trees from evaluating; re-allow unfolding them so that kernel
evaluation of the embedded code on concrete inputs goes through. -/
set_option allowUnsafeReducibility true in
attribute [semireducible] Rat.mul

set_option allowUnsafeReducibility true in
attribute [semireducible] Rat.inv

/-- Little-endian 8-byte encoding of a 64-bit value, as produced by Go's
`binary.LittleEndian.PutUint64`. -/
def le64 (n : Nat) : List Nat :=
  [n % 256, n / 2 ^ 8 % 256, n / 2 ^ 16 % 256, n / 2 ^ 24 % 256,
   n / 2 ^ 32 % 256, n / 2 ^ 40 % 256, n / 2 ^ 48 % 256, n / 2 ^ 56 % 256]

/-- Go conversion `uint64(x)` of a nonnegative rational (truncation toward
zero; on nonnegative arguments this is the floor). -/
def truncQ (x : ℚ) : Nat := (⌊x⌋).toNat

/-- A `KeyedHash` (Go: `func(key []byte) hash.Hash`): given a key and the
bytes written to the hash, produce the digest. -/
def KeyedHash : Type := List Nat → List Nat → List Nat

/-- The `KeyedHashTree` struct of `kht.go`: root key, keyed hash algorithm,
block size, maximum size, derived depth, and branching factor. -/
structure KeyedHashTree where
  root : List Nat
  alg : KeyedHash
  blockSize : Nat
  maxSize : Nat
  depth : Nat
  factor : ℚ

/-- The constructor `New` of `kht.go`: stores the five parameters and derives
`depth = uint64(math.Ceil(math.Log(maxSize/blockSize) / math.Log(factor)))`. -/
noncomputable def New (key : List Nat) (alg : KeyedHash)
    (blockSize maxSize : Nat) (factor : ℚ) : KeyedHashTree where
  root := key
  alg := alg
  blockSize := blockSize
  maxSize := maxSize
  factor := factor
  depth := (⌈Real.log ((maxSize : ℝ) / (blockSize : ℝ)) /
              Real.log ((factor : ℝ))⌉).toNat

/-- The per-level divisor computed inside the loop of `Key`:
`uint64(math.Pow(t.factor, float64(level-1))) * t.blockSize`. -/
def levelDivisor (t : KeyedHashTree) (level : Nat) : Nat :=
  truncQ (t.factor ^ (level - 1)) * t.blockSize

/-- One iteration of the loop body of `Key` at step counter `i`: compute
`level = depth - i`, `y = offset / levelDivisor`, build the 16-byte buffer
`le64 i ++ le64 y`, and replace the working key by the digest of the keyed
hash keyed with the current working key fed that buffer. -/
def keyStep (t : KeyedHashTree) (offset : Nat) (k : List Nat) (i : Nat) :
    List Nat :=
  t.alg k (le64 i ++ le64 (offset / levelDivisor t (t.depth - i)))

/-- The loop `for i := uint64(0); i < t.depth; i++` of `Key`, with `n`
iterations remaining, current counter `i` and working key `k`. -/
def keyLoop (t : KeyedHashTree) (offset : Nat) :
    Nat → Nat → List Nat → List Nat
  | 0, _, k => k
  | n + 1, i, k => keyLoop t offset n (i + 1) (keyStep t offset k i)

/-- The method `Key` of `kht.go`: panic (modelled as `none`) when
`offset > t.maxSize`, otherwise run the root-to-leaf loop starting from a
copy of the root key. -/
def Key (t : KeyedHashTree) (offset : Nat) : Option (List Nat) :=
  if offset > t.maxSize then none
  else some (keyLoop t offset t.depth 0 t.root)

/-- State-passing reading of the method `Key`: the receiver `t` is threaded
through every statement of the body, so that what the call returns of the
tree can be compared with the tree passed in.  The source never assigns to
any field of `t`, so the thread only reads. -/
def keyLoopS (offset : Nat) :
    Nat → Nat → KeyedHashTree × List Nat → KeyedHashTree × List Nat
  | 0, _, s => s
  | n + 1, i, (t, k) => keyLoopS offset n (i + 1) (t, keyStep t offset k i)

/-- State-passing version of `Key`: returns the tree as left by the call
together with the call's result. -/
def KeyWithState (t : KeyedHashTree) (offset : Nat) :
    KeyedHashTree × Option (List Nat) :=
  if offset > t.maxSize then (t, none)
  else
    let s := keyLoopS offset t.depth 0 (t, t.root)
    (s.1, some s.2)

/-- A concrete keyed hash used to instantiate universally quantified
statements: the digest is the key followed by the message (injective in the
message history, so it separates distinct walks). -/
def concatAlg : KeyedHash := fun k m => k ++ m

/-! MD5 (RFC 1321) and HMAC (RFC 2104), the concrete keyed hash the test
suite of the repository exercises through `kht.HMAC(md5.New)`. -/

/-- Per-round additive constants of MD5 (`floor(2^32 * abs(sin(i+1)))`). -/
def md5K : List Nat :=
  [0xd76aa478, 0xe8c7b756, 0x242070db, 0xc1bdceee,
   0xf57c0faf, 0x4787c62a, 0xa8304613, 0xfd469501,
   0x698098d8, 0x8b44f7af, 0xffff5bb1, 0x895cd7be,
   0x6b901122, 0xfd987193, 0xa679438e, 0x49b40821,
   0xf61e2562, 0xc040b340, 0x265e5a51, 0xe9b6c7aa,
   0xd62f105d, 0x02441453, 0xd8a1e681, 0xe7d3fbc8,
   0x21e1cde6, 0xc33707d6, 0xf4d50d87, 0x455a14ed,
   0xa9e3e905, 0xfcefa3f8, 0x676f02d9, 0x8d2a4c8a,
   0xfffa3942, 0x8771f681, 0x6d9d6122, 0xfde5380c,
   0xa4beea44, 0x4bdecfa9, 0xf6bb4b60, 0xbebfbc70,
   0x289b7ec6, 0xeaa127fa, 0xd4ef3085, 0x04881d05,
   0xd9d4d039, 0xe6db99e5, 0x1fa27cf8, 0xc4ac5665,
   0xf4292244, 0x432aff97, 0xab9423a7, 0xfc93a039,
   0x655b59c3, 0x8f0ccc92, 0xffeff47d, 0x85845dd1,
   0x6fa87e4f, 0xfe2ce6e0, 0xa3014314, 0x4e0811a1,
   0xf7537e82, 0xbd3af235, 0x2ad7d2bb, 0xeb86d391]

/-- Per-round left-rotation amounts of MD5. -/
def md5S : List Nat :=
  [7, 12, 17, 22, 7, 12, 17, 22, 7, 12, 17, 22, 7, 12, 17, 22,
   5, 9, 14, 20, 5, 9, 14, 20, 5, 9, 14, 20, 5, 9, 14, 20,
   4, 11, 16, 23, 4, 11, 16, 23, 4, 11, 16, 23, 4, 11, 16, 23,
   6, 10, 15, 21, 6, 10, 15, 21, 6, 10, 15, 21, 6, 10, 15, 21]

/-- The 32-bit modulus. -/
def u32 : Nat := 4294967296

/-- Left rotation of a 32-bit word by `s` places. -/
def rotl32 (x s : Nat) : Nat := (x <<< s) % u32 ||| x >>> (32 - s)

/-- Round function of MD5: F, G, H, I according to the round index. -/
def md5F (i b c d : Nat) : Nat :=
  if i < 16 then b &&& c ||| (b ^^^ 0xffffffff) &&& d
  else if i < 32 then d &&& b ||| (d ^^^ 0xffffffff) &&& c
  else if i < 48 then b ^^^ c ^^^ d
  else c ^^^ (b ||| (d ^^^ 0xffffffff))

/-- Message-word schedule of MD5. -/
def md5G (i : Nat) : Nat :=
  if i < 16 then i
  else if i < 32 then (5 * i + 1) % 16
  else if i < 48 then (3 * i + 5) % 16
  else 7 * i % 16

/-- One of the 64 rounds of the MD5 compression function. -/
def md5Round (M : List Nat) (st : Nat × Nat × Nat × Nat) (i : Nat) :
    Nat × Nat × Nat × Nat :=
  let (a, b, c, d) := st
  let f := (md5F i b c d + a + md5K.getD i 0 + M.getD (md5G i) 0) % u32
  (d, (b + rotl32 f (md5S.getD i 0)) % u32, b, c)

/-- Decode a byte list into little-endian 32-bit words, four bytes a word. -/
def leWords : List Nat → List Nat
  | b0 :: b1 :: b2 :: b3 :: rest =>
    (b0 + 256 * b1 + 65536 * b2 + 16777216 * b3) :: leWords rest
  | _ => []

/-- The MD5 compression function on one 64-byte block. -/
def md5Block (st : Nat × Nat × Nat × Nat) (block : List Nat) :
    Nat × Nat × Nat × Nat :=
  let M := leWords block
  let (a, b, c, d) := st
  let r := (List.range 64).foldl (md5Round M) (a, b, c, d)
  ((a + r.1) % u32, (b + r.2.1) % u32, (c + r.2.2.1) % u32,
   (d + r.2.2.2) % u32)

/-- Split a byte list into 64-byte blocks (fuelled to stay structural; the
fuel is at least the list length wherever it is used). -/
def chunks64 : Nat → List Nat → List (List Nat)
  | 0, _ => []
  | _, [] => []
  | fuel + 1, msg => msg.take 64 :: chunks64 fuel (msg.drop 64)

/-- MD5 padding: a 0x80 byte, zeros to 56 mod 64, and the 64-bit
little-endian bit length. -/
def md5Pad (msg : List Nat) : List Nat :=
  msg ++ 0x80 :: List.replicate ((119 - msg.length % 64) % 64) 0 ++
    le64 (msg.length * 8 % 2 ^ 64)

/-- Little-endian 4-byte encoding of a 32-bit word. -/
def le32 (n : Nat) : List Nat :=
  [n % 256, n / 256 % 256, n / 65536 % 256, n / 16777216 % 256]

/-- The MD5 digest of a byte list. -/
def md5 (msg : List Nat) : List Nat :=
  let p := md5Pad msg
  let r := (chunks64 p.length p).foldl md5Block
    (0x67452301, 0xefcdab89, 0x98badcfe, 0x10325476)
  le32 r.1 ++ le32 r.2.1 ++ le32 r.2.2.1 ++ le32 r.2.2.2

/-- HMAC (RFC 2104) over a hash `H` with block length `blockLen`. -/
def hmac (H : List Nat → List Nat) (blockLen : Nat)
    (key msg : List Nat) : List Nat :=
  let k0 := if blockLen < key.length then H key else key
  let kp := k0 ++ List.replicate (blockLen - k0.length) 0
  H (kp.map (fun b => b ^^^ 0x5c) ++ H (kp.map (fun b => b ^^^ 0x36) ++ msg))

/-- The keyed hash `kht.HMAC(md5.New)` used by the repository's tests. -/
def hmacMd5 : KeyedHash := hmac md5 64

/-- The root key of the test suite, the ASCII bytes of the string yay. -/
def yay : List Nat := [0x79, 0x61, 0x79]

/-- The eight distinct leaf keys of the repository's `TestKey` table: entry
`j` is the expected digest for offsets `2*j` and `2*j + 1`. -/
def testKeys : List (List Nat) :=
  [[0x3a, 0xbe, 0x2f, 0xa3, 0xa0, 0xac, 0x9b, 0xa2,
    0xa7, 0x4d, 0x17, 0xd4, 0x10, 0xb1, 0x30, 0x06],
   [0x00, 0x0e, 0x19, 0x5a, 0x57, 0x67, 0xc8, 0x69,
    0xdb, 0xb7, 0x60, 0xc7, 0xae, 0xf7, 0x45, 0xe5],
   [0x47, 0xd6, 0x23, 0x46, 0x88, 0x52, 0x11, 0xe5,
    0xb1, 0xba, 0x78, 0x3c, 0x9d, 0x49, 0x81, 0x9d],
   [0x36, 0x65, 0xbc, 0xec, 0x2f, 0x34, 0x0b, 0x96,
    0x6f, 0xb2, 0x70, 0xeb, 0x4b, 0xed, 0x22, 0x55],
   [0x81, 0x15, 0xf5, 0x6e, 0x04, 0xd4, 0xe8, 0x4a,
    0x9b, 0x8e, 0x45, 0xb8, 0x2f, 0xad, 0xd1, 0x55],
   [0xa6, 0x07, 0x3d, 0x82, 0x8e, 0x64, 0x27, 0x5e,
    0x2a, 0x1e, 0x91, 0xcd, 0xef, 0x2f, 0xe9, 0x81],
   [0x4d, 0xbd, 0x5a, 0x62, 0x2d, 0x23, 0xd5, 0x27,
    0x92, 0x8e, 0x69, 0x1d, 0x3d, 0xfe, 0xb1, 0x20],
   [0xe0, 0x09, 0x48, 0xcc, 0x3a, 0x86, 0xcc, 0x31,
    0x90, 0x73, 0xe1, 0x3f, 0x63, 0x75, 0x3d, 0xdf]]

/-- The reference root-to-leaf walk exactly as the specification words it:
at step `i` (with `level = depth - i`) the level block size is the exact
product `blockSize * factor ^ (level - 1)` and `y` is the floor of the
exact quotient `offset / levelBlockSize`.  This differs from the code,
which truncates the power to an integer before multiplying. -/
def specWalk (t : KeyedHashTree) (offset : Nat) : List Nat :=
  (List.range t.depth).foldl
    (fun k i =>
      t.alg k (le64 i ++ le64 ((⌊(offset : ℚ) /
        ((t.blockSize : ℚ) * t.factor ^ (t.depth - i - 1))⌋).toNat)))
    t.root

/-- The reference walk amended to what the code computes: at step `i` the
divisor is `uint64(factor ^ (level - 1)) * blockSize`, the power being
truncated to an integer before the multiplication. -/
def amendedWalk (t : KeyedHashTree) (offset : Nat) : List Nat :=
  (List.range t.depth).foldl
    (fun k i =>
      t.alg k (le64 i ++ le64 (offset / levelDivisor t (t.depth - i))))
    t.root

/-- A small concrete tree (the fields a call to `New` with `blockSize = 2`,
`maxSize = 16`, `factor = 8` stores, with the depth 1 that construction
derives) used to instantiate universally quantified statements. -/
def witnessTree : KeyedHashTree := ⟨[], concatAlg, 2, 16, 1, 8⟩

/-- A keyed hash with a fixed 16-byte digest, used to instantiate
digest-length hypotheses. -/
def constAlg16 : KeyedHash := fun _ _ => List.replicate 16 0

/-- The witness tree with the fixed-digest keyed hash. -/
def witnessTree16 : KeyedHashTree := ⟨[], constAlg16, 2, 16, 1, 8⟩

/-!  Helper lemmas about the depth computed at construction. -/

/-- Rewriting a constructed tree into a literal once its depth is known (the
other five fields are stored unchanged). -/
theorem New_eq_mk (key : List Nat) (alg : KeyedHash) (b m : Nat) (f : ℚ)
    (d : Nat) (h : (New key alg b m f).depth = d) :
    New key alg b m f = ⟨key, alg, b, m, d, f⟩ := by
  rw [← h]; rfl

/-- The depth of the test-suite tree (`blockSize = 2`, `maxSize = 16`,
`factor = 8`) is `ceil(log 8 / log 8) = 1`. -/
theorem depth_2_16_8 (key : List Nat) (alg : KeyedHash) :
    (New key alg 2 16 8).depth = 1 := by
  show (⌈Real.log (((16:Nat) : ℝ) / ((2:Nat) : ℝ)) /
          Real.log (((8:ℚ) : ℝ))⌉).toNat = 1
  norm_num

/-- Depth of the tree with `blockSize = 4`, `maxSize = 8`, `factor = 3/2`:
`log 2 / log (3/2)` lies in `(1, 2]`, so the ceiling is `2`. -/
theorem depth_4_8_three_halves (key : List Nat) (alg : KeyedHash) :
    (New key alg 4 8 (3/2)).depth = 2 := by
  show (⌈Real.log (((8:Nat) : ℝ) / ((4:Nat) : ℝ)) /
          Real.log (((3/2:ℚ) : ℝ))⌉).toNat = 2
  have h32 : ((3/2 : ℚ) : ℝ) = 3/2 := by norm_num
  have h1 : Real.log (((8:Nat):ℝ) / ((4:Nat):ℝ)) = Real.log 2 := by norm_num
  rw [h32, h1]
  have hpos : 0 < Real.log (3/2 : ℝ) := Real.log_pos (by norm_num)
  have hle : Real.log 2 / Real.log (3/2 : ℝ) ≤ 2 := by
    rw [div_le_iff₀ hpos]
    have h2 : 2 * Real.log (3/2 : ℝ) = Real.log (((3:ℝ)/2)^2) := by
      rw [Real.log_pow]; push_cast; ring
    rw [h2]
    exact Real.log_le_log (by norm_num) (by norm_num)
  have hlt : 1 < Real.log 2 / Real.log (3/2 : ℝ) := by
    rw [lt_div_iff₀ hpos]
    have := Real.log_lt_log (x := (3:ℝ)/2) (by norm_num)
      (by norm_num : (3:ℝ)/2 < 2)
    linarith
  have hceil : ⌈Real.log 2 / Real.log (3/2 : ℝ)⌉ = 2 := by
    rw [Int.ceil_eq_iff]
    constructor
    · push_cast; linarith
    · push_cast; linarith
  rw [hceil]
  rfl

/-- Depth of any tree with `maxSize = blockSize ≥ 1` and `factor > 1`:
the ratio is `1`, its log is `0`, and the ceiling of `0` is `0`.  (The
factor hypothesis keeps the statement inside the regime where the Go
floating-point computation is defined; the real-valued model would not
need it.) -/
theorem depth_same (key : List Nat) (alg : KeyedHash) (b : Nat) (f : ℚ)
    (hb : 1 ≤ b) (_hf : 1 < f) :
    (New key alg b b f).depth = 0 := by
  show (⌈Real.log ((b : ℝ) / (b : ℝ)) / Real.log ((f : ℝ))⌉).toNat = 0
  have hb0 : (b:ℝ) ≠ 0 := by
    have : 0 < b := hb
    positivity
  rw [div_self hb0]
  simp [Real.log_one]

/-!  Helper lemmas about the derivation loop. -/

/-- The counting loop of `Key` is a left fold of the step body over the
list of step counters. -/
theorem keyLoop_eq_foldl (t : KeyedHashTree) (offset : Nat) :
    ∀ (n i : Nat) (k : List Nat),
      keyLoop t offset n i k =
        (List.range' i n).foldl (fun k' j => keyStep t offset k' j) k := by
  intro n
  induction n with
  | zero => intro i k; rfl
  | succ n ih => intro i k; simp [keyLoop, List.range', ih]

/-- Two offsets in the same leaf block take the same quotient at every
level, hence run the loop identically: the level divisor is
`truncQ (factor ^ (level-1)) * blockSize`, a multiple of `blockSize`, and
`o / (m * blockSize) = (o / blockSize) / m`. -/
theorem keyLoop_div_eq (t : KeyedHashTree) (o1 o2 : Nat)
    (hb : o1 / t.blockSize = o2 / t.blockSize) :
    ∀ n i k, keyLoop t o1 n i k = keyLoop t o2 n i k := by
  have hstep : ∀ i k, keyStep t o1 k i = keyStep t o2 k i := by
    intro i k
    unfold keyStep levelDivisor
    rw [mul_comm (truncQ _) t.blockSize,
        ← Nat.div_div_eq_div_mul, ← Nat.div_div_eq_div_mul, hb]
  intro n
  induction n with
  | zero => intros; rfl
  | succ n ih => intro i k; simp only [keyLoop, hstep, ih]

/-- When the loop runs at least once, its result is a digest of `t.alg`,
so it has the digest length. -/
theorem keyLoop_length (t : KeyedHashTree) (offset d : Nat)
    (halg : ∀ k m, (t.alg k m).length = d) :
    ∀ n i k, 1 ≤ n → (keyLoop t offset n i k).length = d := by
  intro n
  induction n with
  | zero => intro i k h; exact absurd h (by simp)
  | succ n ih =>
    intro i k _
    show (keyLoop t offset n (i + 1) (keyStep t offset k i)).length = d
    cases n with
    | zero => exact halg _ _
    | succ m => exact ih (i + 1) _ (Nat.succ_le_succ (Nat.zero_le m))

/-- The state-passing reading of `Key` leaves the tree exactly as it was
and returns exactly what `Key` returns. -/
theorem KeyWithState_eq (t : KeyedHashTree) (offset : Nat) :
    KeyWithState t offset = (t, Key t offset) := by
  have hS : ∀ n i k, (keyLoopS offset n i (t, k)).1 = t ∧
      (keyLoopS offset n i (t, k)).2 = keyLoop t offset n i k := by
    intro n
    induction n with
    | zero => intros; exact ⟨rfl, rfl⟩
    | succ n ih => intro i k; exact ih (i + 1) (keyStep t offset k i)
  unfold KeyWithState Key
  by_cases h : offset > t.maxSize
  · rw [if_pos h, if_pos h]
  · rw [if_neg h, if_neg h]
    have h2 := hS t.depth 0 t.root
    show ((keyLoopS offset t.depth 0 (t, t.root)).1,
          some (keyLoopS offset t.depth 0 (t, t.root)).2) =
         (t, some (keyLoop t offset t.depth 0 t.root))
    rw [h2.1, h2.2]

/-- The per-level divisor is positive whenever `blockSize ≥ 1` and
`factor > 1`: the truncated power of a factor above one is at least one. -/
theorem levelDivisor_ge_one (t : KeyedHashTree) (level : Nat)
    (hb : 1 ≤ t.blockSize) (hf : 1 < t.factor) :
    1 ≤ levelDivisor t level := by
  unfold levelDivisor truncQ
  have h1 : (1 : ℚ) ≤ t.factor ^ (level - 1) := one_le_pow₀ (le_of_lt hf)
  have h2 : (1 : ℤ) ≤ ⌊t.factor ^ (level - 1)⌋ := by
    rw [Int.le_floor]; exact_mod_cast h1
  have h3 : 1 ≤ (⌊t.factor ^ (level - 1)⌋).toNat := by omega
  exact Nat.mul_le_mul h3 hb

/-!  The claims. -/

/-- C1 (amended): for every tree with depth at least 1 and every offset at
most `maxSize`, `Key offset` equals the reference root-to-leaf walk whose
per-level divisor is the code's `uint64(factor^(level-1)) * blockSize`
(the power truncated to an integer before the multiplication); the claim's
exact product `blockSize * factor^(level-1)` disagrees with the code at
fractional factors. -/
theorem key_matches_amended_walk (t : KeyedHashTree) (offset : Nat)
    (_hd : 1 ≤ t.depth) (hoff : offset ≤ t.maxSize) :
    Key t offset = some (amendedWalk t offset) := by
  unfold Key
  rw [if_neg (by omega)]
  rw [keyLoop_eq_foldl, amendedWalk, List.range_eq_range']
  rfl

/-- Witness: the amended C1 theorem applied at a concrete tree of depth 1
and offset 3. -/
theorem key_matches_amended_walk_witness :
    1 ≤ witnessTree.depth ∧ 3 ≤ witnessTree.maxSize ∧
    Key witnessTree 3 = some (amendedWalk witnessTree 3) :=
  ⟨by decide, by decide,
   key_matches_amended_walk witnessTree 3 (by decide) (by decide)⟩

/-- C1 counterexample: for the constructed tree with `blockSize = 4`,
`maxSize = 8`, `factor = 3/2` (depth 2) and offset 4, the code disagrees
with the reference walk as the claim words it: at the first step the code
divides by `uint64((3/2)^1) * 4 = 4` and gets `y = 1`, while the claim's
walk divides by `4 * (3/2) = 6` exactly and gets `y = 0`. -/
theorem key_spec_walk_counterexample :
    1 ≤ (New [] concatAlg 4 8 (3/2)).depth ∧
    4 ≤ (New [] concatAlg 4 8 (3/2)).maxSize ∧
    Key (New [] concatAlg 4 8 (3/2)) 4 ≠
      some (specWalk (New [] concatAlg 4 8 (3/2)) 4) := by
  have h := New_eq_mk [] concatAlg 4 8 (3/2) 2
    (depth_4_8_three_halves [] concatAlg)
  rw [h]
  refine ⟨by decide, by decide, by decide⟩

set_option maxRecDepth 400000 in
/-- C2: for the tree built from the root key yay, HMAC-MD5, blockSize 2,
maxSize 16 and factor 8, every offset pair (2j, 2j+1) for j < 8 derives the
j-th entry of the test-suite key table (in particular offsets 0 and 1 give
3a be 2f a3 a0 ac 9b a2 a7 4d 17 d4 10 b1 30 06, and offsets 2 and 3 give
00 0e 19 5a 57 67 c8 69 db b7 60 c7 ae f7 45 e5), and the eight 16-byte
keys are pairwise distinct. -/
theorem key_known_answer_vectors :
    (∀ j : Fin 8, ∀ r : Fin 2,
      Key (New yay hmacMd5 2 16 8) (2 * j.val + r.val) =
        some (testKeys.getD j.val [])) ∧
    testKeys.Nodup ∧ testKeys.length = 8 := by
  have h := New_eq_mk yay hmacMd5 2 16 8 1 (depth_2_16_8 yay hmacMd5)
  refine ⟨?_, by decide, by decide⟩
  rw [h]
  decide

/-- C3: `Key` fails exactly when the offset exceeds `maxSize` (the bound is
inclusive: `Key maxSize` succeeds), and on the failing path the result does
not depend on the keyed hash (no hashing happens) and the tree is returned
unchanged by the state-passing reading. -/
theorem key_offset_range_check (t : KeyedHashTree) (offset : Nat)
    (a2 : KeyedHash) :
    (Key t offset = none ↔ t.maxSize < offset) ∧
    (∃ k, Key t t.maxSize = some k) ∧
    (t.maxSize < offset →
      Key { t with alg := a2 } offset = none ∧
      KeyWithState t offset = (t, none)) := by
  refine ⟨?_, ?_, fun h => ⟨?_, ?_⟩⟩
  · unfold Key
    by_cases h : offset > t.maxSize
    · rw [if_pos h]; simpa using h
    · rw [if_neg h]; simp; omega
  · exact ⟨_, by unfold Key; rw [if_neg (by omega)]⟩
  · unfold Key; rw [if_pos h]
  · unfold KeyWithState; rw [if_pos h]

/-- Witness: the C3 theorem applied at a concrete tree with maxSize 16 and
the out-of-range offset 17. -/
theorem key_offset_range_check_witness :
    Key witnessTree 17 = none ∧
    KeyWithState witnessTree 17 = (witnessTree, none) :=
  ⟨(key_offset_range_check witnessTree 17 concatAlg).1.mpr (by decide),
   ((key_offset_range_check witnessTree 17 concatAlg).2.2 (by decide)).2⟩

/-- C4: the depth of every constructed tree is the ceiling of
`log(maxSize/blockSize) / log(factor)` computed once at construction, a
call to `Key` leaves it unchanged, and for blockSize 2, maxSize 16,
factor 8 it equals 1. -/
theorem depth_computed_at_construction (key : List Nat) (alg : KeyedHash) :
    (∀ (b m : Nat) (f : ℚ),
      (New key alg b m f).depth =
        (⌈Real.log ((m : ℝ) / (b : ℝ)) / Real.log ((f : ℝ))⌉).toNat ∧
      ∀ offset, ((KeyWithState (New key alg b m f) offset).1).depth =
        (New key alg b m f).depth) ∧
    (New key alg 2 16 8).depth = 1 := by
  refine ⟨fun b m f => ⟨rfl, fun offset => ?_⟩, depth_2_16_8 key alg⟩
  rw [KeyWithState_eq]

/-- C5: two valid offsets with the same leaf-block quotient
`offset / blockSize` derive byte-identical keys: every per-level divisor is
a multiple of `blockSize`, so the two offsets take the same node index at
every level of the walk. -/
theorem key_block_granularity (t : KeyedHashTree) (o1 o2 : Nat)
    (h1 : o1 ≤ t.maxSize) (h2 : o2 ≤ t.maxSize)
    (hb : o1 / t.blockSize = o2 / t.blockSize) :
    Key t o1 = Key t o2 := by
  unfold Key
  rw [if_neg (by omega), if_neg (by omega), keyLoop_div_eq t o1 o2 hb]

/-- Witness: the C5 theorem applied at a concrete tree with blockSize 2 and
offsets 2 and 3, which share the leaf block 1. -/
theorem key_block_granularity_witness :
    2 ≤ witnessTree.maxSize ∧ 3 ≤ witnessTree.maxSize ∧
    2 / witnessTree.blockSize = 3 / witnessTree.blockSize ∧
    Key witnessTree 2 = Key witnessTree 3 :=
  ⟨by decide, by decide, by decide,
   key_block_granularity witnessTree 2 3 (by decide) (by decide) (by decide)⟩

/-- C6 (amended): for every tree of depth at least 1 whose keyed hash has
fixed digest length `d`, `Key` returns a byte sequence of length `d` at
every valid offset (the same length for all of them); the depth hypothesis
is needed because a depth-0 tree returns the root key itself. -/
theorem key_length_eq_digest_size (t : KeyedHashTree) (d offset : Nat)
    (hdep : 1 ≤ t.depth) (halg : ∀ k m, (t.alg k m).length = d)
    (hoff : offset ≤ t.maxSize) :
    (Key t offset).map List.length = some d := by
  unfold Key
  rw [if_neg (by omega)]
  simp [keyLoop_length t offset d halg t.depth 0 t.root hdep]

/-- Witness: the amended C6 theorem applied at a concrete depth-1 tree
whose keyed hash always digests to 16 bytes. -/
theorem key_length_eq_digest_size_witness :
    1 ≤ witnessTree16.depth ∧ 3 ≤ witnessTree16.maxSize ∧
    (Key witnessTree16 3).map List.length = some 16 :=
  ⟨by decide, by decide,
   key_length_eq_digest_size witnessTree16 16 3 (by decide)
     (fun _ _ => rfl) (by decide)⟩

/-- C6 counterexample: the constructed tree with root key yay (3 bytes),
HMAC-MD5 (16-byte digests), blockSize 2 and maxSize 2 has depth 0, and
`Key 0` returns the 3-byte root key, not a 16-byte digest. -/
theorem key_length_counterexample :
    Key (New yay hmacMd5 2 2 8) 0 = some yay ∧
    yay.length = 3 ∧
    (hmacMd5 yay (le64 0 ++ le64 0)).length = 16 ∧
    (3 : Nat) ≠ 16 := by
  have h := New_eq_mk yay hmacMd5 2 2 8 0
    (depth_same yay hmacMd5 2 8 (by decide) (by decide))
  refine ⟨by rw [h]; decide, by decide, by decide, by decide⟩

/-- C7 (amended): the reference constructor performs no parameter
validation: for invalid parameters (factor at most 1, blockSize 0, or
maxSize below blockSize) it still returns a tree, storing the parameters
unchanged; rejection with an InvalidParameters error is what the spec
prescribes for hardened reimplementations, not what this code does. -/
theorem new_stores_parameters_unvalidated (key : List Nat) (alg : KeyedHash)
    (b m : Nat) (f : ℚ) (_h : f ≤ 1 ∨ b = 0 ∨ m < b) :
    (New key alg b m f).root = key ∧ (New key alg b m f).alg = alg ∧
    (New key alg b m f).blockSize = b ∧ (New key alg b m f).maxSize = m ∧
    (New key alg b m f).factor = f :=
  ⟨rfl, rfl, rfl, rfl, rfl⟩

/-- Witness: the amended C7 theorem applied at factor 1 (an invalid
parameter by the claim). -/
theorem new_stores_parameters_unvalidated_witness :
    (New [] concatAlg 2 16 1).root = [] ∧
    (New [] concatAlg 2 16 1).alg = concatAlg ∧
    (New [] concatAlg 2 16 1).blockSize = 2 ∧
    (New [] concatAlg 2 16 1).maxSize = 16 ∧
    (New [] concatAlg 2 16 1).factor = 1 :=
  new_stores_parameters_unvalidated [] concatAlg 2 16 1 (Or.inl (le_refl 1))

/-- C7 counterexample: construction with factor 1 (which the claim says
must fail with InvalidParameters) succeeds and returns a tree holding the
given parameters. -/
theorem new_accepts_invalid_parameters :
    (1 : ℚ) ≤ 1 ∧
    (New [] concatAlg 2 16 1).root = [] ∧
    (New [] concatAlg 2 16 1).blockSize = 2 ∧
    (New [] concatAlg 2 16 1).maxSize = 16 ∧
    (New [] concatAlg 2 16 1).factor = 1 :=
  ⟨le_refl 1, rfl, rfl, rfl, rfl⟩

/-- C8: `Key` is pure with respect to the tree: the state-passing reading
of the method returns the tree unchanged (also on the failing path),
returns exactly what the pure function returns, and a repeated call on the
returned tree returns byte-identical output. -/
theorem key_pure_frame (t : KeyedHashTree) (offset : Nat) :
    (KeyWithState t offset).1 = t ∧
    (KeyWithState t offset).2 = Key t offset ∧
    (KeyWithState ((KeyWithState t offset).1) offset).2 = Key t offset := by
  rw [KeyWithState_eq]
  exact ⟨rfl, rfl, by rw [KeyWithState_eq]⟩

/-- C9: a tree constructed with maxSize equal to blockSize has depth 0, and
`Key` at every valid offset returns the root key itself (of the root key's
length), for every keyed hash whatsoever — the hash is never invoked. -/
theorem key_depth_zero_returns_root (key : List Nat) (alg : KeyedHash)
    (b : Nat) (f : ℚ) (offset : Nat)
    (hb : 1 ≤ b) (hf : 1 < f) (hoff : offset ≤ b) :
    (New key alg b b f).depth = 0 ∧
    Key (New key alg b b f) offset = some key ∧
    (Key (New key alg b b f) offset).map List.length = some key.length := by
  have hd := depth_same key alg b f hb hf
  have h := New_eq_mk key alg b b f 0 hd
  rw [h]
  refine ⟨rfl, ?_, ?_⟩ <;>
  · unfold Key
    rw [if_neg (by simpa using hoff)]
    rfl

/-- Witness: the C9 theorem applied at a 2-byte root key, blockSize and
maxSize both 2, factor 8, offset 1. -/
theorem key_depth_zero_returns_root_witness :
    (New [1, 2] concatAlg 2 2 8).depth = 0 ∧
    Key (New [1, 2] concatAlg 2 2 8) 1 = some [1, 2] ∧
    (Key (New [1, 2] concatAlg 2 2 8) 1).map List.length = some 2 :=
  key_depth_zero_returns_root [1, 2] concatAlg 2 8 1 (by decide) (by decide)
    (by decide)

/-- C10: for blockSize at least 1 and factor above 1, the per-level divisor
`uint64(factor^(level-1)) * blockSize` used at each step of the loop of
`Key` is at least 1, so no step divides by zero; the second conjunct
records that this is exactly the divisor the loop body uses. -/
theorem key_divisor_positive (t : KeyedHashTree) (offset i : Nat)
    (k : List Nat) (hb : 1 ≤ t.blockSize) (hf : 1 < t.factor) :
    1 ≤ levelDivisor t (t.depth - i) ∧
    keyStep t offset k i =
      t.alg k (le64 i ++ le64 (offset / levelDivisor t (t.depth - i))) :=
  ⟨levelDivisor_ge_one t (t.depth - i) hb hf, rfl⟩

/-- Witness: the C10 theorem applied at a concrete tree and loop step 0. -/
theorem key_divisor_positive_witness :
    1 ≤ levelDivisor witnessTree (witnessTree.depth - 0) ∧
    keyStep witnessTree 3 [] 0 = witnessTree.alg []
      (le64 0 ++ le64 (3 / levelDivisor witnessTree (witnessTree.depth - 0))) :=
  key_divisor_positive witnessTree 3 0 [] (by decide) (by decide)

end Kht

